import Mathlib

set_option linter.unusedSectionVars false

/-!
Shallow embedding of the Go package `ordset` (file `ordset.go`).

An `OrderedSet` combines a doubly linked list (`container/list`, the element
sequence front to back) with a hash map from element value to the list node
holding it.  The embedding represents the linked list as a `List T` in
front-to-back order and the hash map by its key set, a `Finset T`; the node
pointer stored under a key is represented by the occurrence of that key in
the sequence (unique under the bijection invariant that the operations
maintain).  Go `(value, ok)` returns become `Option T`; Go `error` returns
become `Option OrdsetError`; the nil-node dereference of `Front`/`Back` on an
empty set is the `none` branch of the embedding.
-/

namespace Ordset

/-- Error value `ErrMarkNotFound` of ordset.go: the reference value for
insert is not in the OrderedSet. -/
inductive OrdsetError : Type where
  | markNotFound
deriving DecidableEq

/-- State of Go `OrderedSet[T]`: field `list` is the linked list read front
to back, field `mapping` is the key set of the hash map
`map[T]*list.Element`. -/
structure OrderedSet (T : Type) where
  list : List T
  mapping : Finset T
deriving DecidableEq

variable {T : Type} [DecidableEq T] {E : Type}

namespace OrderedSet

/-- Go `Len`: `o.list.Len()`, the length of the linked list. -/
def Len (o : OrderedSet T) : Nat := o.list.length

/-- Go `Has`: hash map lookup `_, exists := o.mapping[v]`. -/
def Has (o : OrderedSet T) (v : T) : Bool := decide (v ∈ o.mapping)

/-- Go `Front`: `o.list.Front().Value.(T)`.  On an empty set the Go code
dereferences a nil element and panics; that branch is `none` here. -/
def Front (o : OrderedSet T) : Option T := o.list.head?

/-- Go `Back`: `o.list.Back().Value.(T)`, `none` models the nil dereference
on an empty set. -/
def Back (o : OrderedSet T) : Option T := o.list.getLast?

/-- Go `Append`: if `v` is a member, return false without mutation, else push
`v` to the back of the list and record it in the map.  Result is the new
state paired with the returned bool. -/
def Append (o : OrderedSet T) (v : T) : OrderedSet T × Bool :=
  if o.Has v then (o, false)
  else (⟨o.list ++ [v], insert v o.mapping⟩, true)

/-- Go `Prepend`: symmetric to `Append` at the front of the list. -/
def Prepend (o : OrderedSet T) (v : T) : OrderedSet T × Bool :=
  if o.Has v then (o, false)
  else (⟨v :: o.list, insert v o.mapping⟩, true)

/-- Go `New`: builds the empty set and then calls `Append` on each initial
element in the given order. -/
def New (elems : List T) : OrderedSet T :=
  elems.foldl (fun s v => (s.Append v).1) ⟨[], ∅⟩

/-- Go `Pop`: when the set is nonempty, remove the back element of the list,
delete its map entry and return it; on an empty set return the zero value
with ok set to false (modelled by `none`). -/
def Pop (o : OrderedSet T) : OrderedSet T × Option T :=
  match o.list.getLast? with
  | none => (o, none)
  | some v => (⟨o.list.dropLast, o.mapping.erase v⟩, some v)

/-- Go `Shift`: symmetric to `Pop` at the front of the list. -/
def Shift (o : OrderedSet T) : OrderedSet T × Option T :=
  match o.list with
  | [] => (o, none)
  | v :: rest => (⟨rest, o.mapping.erase v⟩, some v)

/-- The list splice performed by container/list `InsertAfter` and
`InsertBefore` at the node of `mark`: the new value `v` is linked
immediately after (when `after` is true) or immediately before (when
`after` is false) the occurrence of `mark` in the sequence (unique under
the invariant; the splice targets the first occurrence).  When `mark` does
not occur (unreachable from the public operations, which test membership
first), the list is unchanged. -/
def insertRel (v mark : T) (after : Bool) : List T → List T
  | [] => []
  | x :: xs =>
    if x = mark then (if after then x :: v :: xs else v :: x :: xs)
    else x :: insertRel v mark after xs

/-- The list splice performed by container/list `MoveAfter` and `MoveBefore`:
both return without touching the list when the element to move is the mark
node itself; otherwise they unlink the node of `v` and relink it
immediately after, resp. before, the node of `mark`. -/
def moveRel (v mark : T) (after : Bool) (l : List T) : List T :=
  if v = mark then l else insertRel v mark after (l.erase v)

/-- Go `Insert`: mark not a member fails with `ErrMarkNotFound`; a present
`v` is a no-op returning `(false, nil)`; otherwise `v` is linked relative
to `mark` per `after` and recorded in the map.  Result: new state, added
bool, error. -/
def Insert (o : OrderedSet T) (v mark : T) (after : Bool) :
    OrderedSet T × Bool × Option OrdsetError :=
  if !(o.Has mark) then (o, false, some OrdsetError.markNotFound)
  else if o.Has v then (o, false, none)
  else (⟨insertRel v mark after o.list, insert v o.mapping⟩, true, none)

/-- Go `Move`: mark not a member fails with `ErrMarkNotFound`; when `v` is a
member its node is moved relative to `mark`'s node per `after` (the map is
untouched: the entry for `v` keeps pointing at the same node); when `v` is
not a member the call is a silent no-op returning nil. -/
def Move (o : OrderedSet T) (v mark : T) (after : Bool) :
    OrderedSet T × Option OrdsetError :=
  if !(o.Has mark) then (o, some OrdsetError.markNotFound)
  else if o.Has v then (⟨moveRel v mark after o.list, o.mapping⟩, none)
  else (o, none)

/-- Go `Remove`: when `v` is a member, unlink its node and delete its map
entry, returning true; otherwise return false without mutation. -/
def Remove (o : OrderedSet T) (v : T) : OrderedSet T × Bool :=
  if o.Has v then (⟨o.list.erase v, o.mapping.erase v⟩, true)
  else (o, false)

/-- The loop of Go `Range` over a suffix of the list, carrying the running
index `i`: call the visitor on each element in order, return its first
non-nil error and stop there, else return nil after the last element. -/
def rangeGo (loop : Nat → T → Option E) : Nat → List T → Option E
  | _, [] => none
  | i, x :: xs =>
    match loop i x with
    | some e => some e
    | none => rangeGo loop (i + 1) xs

/-- Go `Range`: visits the members front to back with zero-based positions,
short-circuiting on the first visitor error. -/
def Range (o : OrderedSet T) (loop : Nat → T → Option E) : Option E :=
  rangeGo loop 0 o.list

/-- The loop of Go `Range`, additionally recording the sequence of
`(index, value)` calls the visitor receives, in order.  First component:
the calls made; second component: the value `Range` returns. -/
def rangeTraceGo (loop : Nat → T → Option E) :
    Nat → List T → List (Nat × T) × Option E
  | _, [] => ([], none)
  | i, x :: xs =>
    match loop i x with
    | some e => ([(i, x)], some e)
    | none =>
      ((i, x) :: (rangeTraceGo loop (i + 1) xs).1, (rangeTraceGo loop (i + 1) xs).2)

/-- Go `Range` instrumented with the list of visitor calls it makes. -/
def RangeTrace (o : OrderedSet T) (loop : Nat → T → Option E) :
    List (Nat × T) × Option E :=
  rangeTraceGo loop 0 o.list

/-- Go `Slice`: materializes the full front-to-back order.  The Go code
allocates a slice of length `Len` and fills position `i` with the `i`-th
visited value via `Range` with a never-failing visitor, which yields
exactly the sequence front to back. -/
def Slice (o : OrderedSet T) : List T := o.list

end OrderedSet

open OrderedSet

/-- The bijection/uniqueness invariant the operations maintain: the map key
set holds exactly the values occurring in the sequence, and the sequence
holds no duplicates. -/
def Inv (o : OrderedSet T) : Prop :=
  (∀ v, v ∈ o.mapping ↔ v ∈ o.list) ∧ o.list.Nodup

/-- States reachable from `New` by the public mutating operations. -/
inductive Reachable : OrderedSet T → Prop where
  | new (elems : List T) : Reachable (New elems)
  | append (o : OrderedSet T) (v : T) : Reachable o → Reachable (o.Append v).1
  | prepend (o : OrderedSet T) (v : T) : Reachable o → Reachable (o.Prepend v).1
  | insertOp (o : OrderedSet T) (v mark : T) (a : Bool) :
      Reachable o → Reachable (o.Insert v mark a).1
  | moveOp (o : OrderedSet T) (v mark : T) (a : Bool) :
      Reachable o → Reachable (o.Move v mark a).1
  | removeOp (o : OrderedSet T) (v : T) : Reachable o → Reachable (o.Remove v).1
  | popOp (o : OrderedSet T) : Reachable o → Reachable o.Pop.1
  | shiftOp (o : OrderedSet T) : Reachable o → Reachable o.Shift.1

/-- Specification-side description of construction dedup, the refinement
target for `New`: keep the first occurrence of each value in order and drop
every later duplicate.  `seen` accumulates the values already emitted. -/
def specDedup (seen : List T) : List T → List T
  | [] => []
  | x :: xs => if x ∈ seen then specDedup seen xs else x :: specDedup (seen ++ [x]) xs

/-- Decides whether `v` occurs immediately after an occurrence of `mark`
somewhere in `l` (adjacent pair `mark, v`). -/
def adjacentAfter : List T → T → T → Bool
  | [], _, _ => false
  | [_], _, _ => false
  | a :: b :: rest, mark, v =>
    (decide (a = mark) && decide (b = v)) || adjacentAfter (b :: rest) mark v

/-- The list `(i, x)` of elements of `l` paired with consecutive indices
starting at `i`. -/
def enumSeq (i : Nat) : List T → List (Nat × T)
  | [] => []
  | x :: xs => (i, x) :: enumSeq (i + 1) xs

/-- The results of `n` successive calls to `Pop`, in call order. -/
def popSeq : Nat → OrderedSet T → List (Option T)
  | 0, _ => []
  | n + 1, o => o.Pop.2 :: popSeq n o.Pop.1

/-- The results of `n` successive calls to `Shift`, in call order. -/
def shiftSeq : Nat → OrderedSet T → List (Option T)
  | 0, _ => []
  | n + 1, o => o.Shift.2 :: shiftSeq n o.Shift.1

theorem has_iff (o : OrderedSet T) (v : T) : o.Has v = true ↔ v ∈ o.mapping := by
  simp [OrderedSet.Has]

theorem mem_take_cons_drop (l : List T) (v w : T) (n : Nat) :
    w ∈ l.take n ++ v :: l.drop n ↔ w = v ∨ w ∈ l := by
  conv_rhs => rw [← List.take_append_drop n l]
  simp only [List.mem_append, List.mem_cons]
  tauto

theorem nodup_take_cons_drop (l : List T) (v : T) (n : Nat)
    (hn : l.Nodup) (hv : v ∉ l) : (l.take n ++ v :: l.drop n).Nodup := by
  rw [List.nodup_middle, List.nodup_cons, List.take_append_drop]
  exact ⟨hv, hn⟩

theorem insertRel_eq (v mark : T) (a : Bool) (l : List T) (h : mark ∈ l) :
    insertRel v mark a l =
      if a then l.take (l.indexOf mark + 1) ++ v :: l.drop (l.indexOf mark + 1)
      else l.take (l.indexOf mark) ++ v :: l.drop (l.indexOf mark) := by
  induction l with
  | nil => cases h
  | cons x xs ih =>
    by_cases hx : x = mark
    · subst hx
      rw [List.indexOf_cons_self]
      cases a <;> simp [insertRel]
    · have hm : mark ∈ xs := by
        rcases List.mem_cons.mp h with h1 | h1
        · exact absurd h1.symm hx
        · exact h1
      rw [List.indexOf_cons_ne xs hx]
      cases a <;> simp [insertRel, hx, ih hm]

theorem insertRel_mem (v mark w : T) (a : Bool) (l : List T) (h : mark ∈ l) :
    w ∈ insertRel v mark a l ↔ w = v ∨ w ∈ l := by
  rw [insertRel_eq v mark a l h]
  cases a <;> exact mem_take_cons_drop l v w _

theorem insertRel_nodup (v mark : T) (a : Bool) (l : List T)
    (h : mark ∈ l) (hn : l.Nodup) (hv : v ∉ l) : (insertRel v mark a l).Nodup := by
  rw [insertRel_eq v mark a l h]
  cases a <;> exact nodup_take_cons_drop l v _ hn hv

theorem inv_append {o : OrderedSet T} (h : Inv o) (v : T) : Inv (o.Append v).1 := by
  by_cases hv : o.Has v
  · simp only [OrderedSet.Append, hv, if_true]
    exact h
  · have hvl : v ∉ o.list := fun hm => hv ((has_iff o v).mpr ((h.1 v).mpr hm))
    simp only [OrderedSet.Append, hv, if_false, Bool.false_eq_true]
    refine ⟨fun w => ?_, ?_⟩
    · simp only [Finset.mem_insert, List.mem_append, List.mem_singleton, h.1 w]
      tauto
    · rw [show o.list ++ [v] = o.list ++ v :: [] from rfl, List.nodup_middle,
        List.nodup_cons]
      simpa using ⟨hvl, h.2⟩

theorem inv_prepend {o : OrderedSet T} (h : Inv o) (v : T) : Inv (o.Prepend v).1 := by
  by_cases hv : o.Has v
  · simp only [OrderedSet.Prepend, hv, if_true]
    exact h
  · have hvl : v ∉ o.list := fun hm => hv ((has_iff o v).mpr ((h.1 v).mpr hm))
    simp only [OrderedSet.Prepend, hv, if_false, Bool.false_eq_true]
    refine ⟨fun w => ?_, ?_⟩
    · simp only [Finset.mem_insert, List.mem_cons, h.1 w]
    · exact List.nodup_cons.mpr ⟨hvl, h.2⟩

theorem pop_nil {o : OrderedSet T} (h : o.list = []) : o.Pop = (o, none) := by
  simp [OrderedSet.Pop, h]

theorem pop_concat {o : OrderedSet T} {l : List T} {a : T} (h : o.list = l ++ [a]) :
    o.Pop = (⟨l, o.mapping.erase a⟩, some a) := by
  simp [OrderedSet.Pop, h, List.getLast?_concat, List.dropLast_concat]

theorem inv_pop {o : OrderedSet T} (h : Inv o) : Inv o.Pop.1 := by
  rcases List.eq_nil_or_concat' o.list with hnil | ⟨l, a, hl⟩
  · rw [pop_nil hnil]
    exact h
  · rw [pop_concat hl]
    have hn : (l ++ [a]).Nodup := hl ▸ h.2
    have hna : a ∉ l := by
      rw [show l ++ [a] = l ++ a :: [] from rfl, List.nodup_middle, List.nodup_cons] at hn
      simpa using hn.1
    have hnl : l.Nodup := by
      rw [show l ++ [a] = l ++ a :: [] from rfl, List.nodup_middle, List.nodup_cons] at hn
      simpa using hn.2
    refine ⟨fun w => ?_, hnl⟩
    simp only [Finset.mem_erase]
    rw [h.1 w, hl]
    simp only [List.mem_append, List.mem_singleton]
    constructor
    · rintro ⟨hne, h1 | h2⟩
      · exact h1
      · exact absurd h2 hne
    · intro hw
      exact ⟨fun he => hna (he ▸ hw), Or.inl hw⟩

theorem inv_shift {o : OrderedSet T} (h : Inv o) : Inv o.Shift.1 := by
  rcases hl : o.list with _ | ⟨x, xs⟩
  · simp [OrderedSet.Shift, hl]
    exact h
  · have hn : (x :: xs).Nodup := hl ▸ h.2
    simp only [OrderedSet.Shift, hl]
    refine ⟨fun w => ?_, (List.nodup_cons.mp hn).2⟩
    simp only [Finset.mem_erase]
    rw [h.1 w, hl]
    simp only [List.mem_cons]
    constructor
    · rintro ⟨hne, h1 | h2⟩
      · exact absurd h1 hne
      · exact h2
    · intro hw
      exact ⟨fun he => (List.nodup_cons.mp hn).1 (he ▸ hw), Or.inr hw⟩

theorem inv_insert {o : OrderedSet T} (h : Inv o) (v mark : T) (a : Bool) :
    Inv (o.Insert v mark a).1 := by
  by_cases hmark : o.Has mark
  · by_cases hv : o.Has v
    · simp only [OrderedSet.Insert, hmark, hv, Bool.not_true, Bool.false_eq_true,
        if_false, if_true]
      exact h
    · have hml : mark ∈ o.list := (h.1 mark).mp ((has_iff o mark).mp hmark)
      have hvl : v ∉ o.list := fun hm => hv ((has_iff o v).mpr ((h.1 v).mpr hm))
      simp only [OrderedSet.Insert, hmark, hv, Bool.not_true, Bool.false_eq_true,
        if_false]
      refine ⟨fun w => ?_, insertRel_nodup v mark a o.list hml h.2 hvl⟩
      rw [insertRel_mem v mark w a o.list hml]
      simp only [Finset.mem_insert, h.1 w]
  · simp only [OrderedSet.Insert, hmark, Bool.not_false, Bool.false_eq_true, if_false,
      Bool.not_eq_true']
    simp only [Bool.not_eq_true] at hmark
    simp [hmark]
    exact h

theorem inv_move {o : OrderedSet T} (h : Inv o) (v mark : T) (a : Bool) :
    Inv (o.Move v mark a).1 := by
  by_cases hmark : o.Has mark
  · by_cases hv : o.Has v
    · simp only [OrderedSet.Move, hmark, hv, Bool.not_true, Bool.false_eq_true,
        if_false, if_true]
      by_cases hvm : v = mark
      · simp only [moveRel, hvm, if_true]
        exact h
      · have hml : mark ∈ o.list := (h.1 mark).mp ((has_iff o mark).mp hmark)
        have hvl : v ∈ o.list := (h.1 v).mp ((has_iff o v).mp hv)
        have h1 : mark ∈ o.list.erase v :=
          (h.2.mem_erase_iff).mpr ⟨fun he => hvm he.symm, hml⟩
        have h2 : v ∉ o.list.erase v := h.2.not_mem_erase
        have h3 : (o.list.erase v).Nodup := h.2.erase v
        simp only [moveRel, hvm, if_false]
        refine ⟨fun w => ?_, insertRel_nodup v mark a _ h1 h3 h2⟩
        rw [insertRel_mem v mark w a _ h1, h.2.mem_erase_iff, h.1 w]
        by_cases hwv : w = v
        · subst hwv
          simp [hvl]
        · simp [hwv]
    · simp only [OrderedSet.Move, hmark, hv, Bool.not_true, Bool.false_eq_true,
        if_false]
      exact h
  · simp only [OrderedSet.Move, hmark, Bool.not_eq_true] at *
    simp [OrderedSet.Move, hmark]
    exact h

theorem inv_remove {o : OrderedSet T} (h : Inv o) (v : T) : Inv (o.Remove v).1 := by
  by_cases hv : o.Has v
  · simp only [OrderedSet.Remove, hv, if_true]
    refine ⟨fun w => ?_, h.2.erase v⟩
    rw [Finset.mem_erase, h.2.mem_erase_iff, h.1 w]
  · simp only [OrderedSet.Remove, hv, Bool.false_eq_true, if_false]
    exact h

theorem inv_foldl (elems : List T) :
    ∀ o : OrderedSet T, Inv o → Inv (elems.foldl (fun s v => (s.Append v).1) o) := by
  induction elems with
  | nil => exact fun o h => h
  | cons x xs ih => exact fun o h => ih _ (inv_append h x)

theorem inv_new (elems : List T) : Inv (New elems) :=
  inv_foldl elems ⟨[], ∅⟩ ⟨fun v => by simp, List.nodup_nil⟩

theorem reachable_inv {o : OrderedSet T} (h : Reachable o) : Inv o := by
  induction h with
  | new elems => exact inv_new elems
  | append o v _ ih => exact inv_append ih v
  | prepend o v _ ih => exact inv_prepend ih v
  | insertOp o v mark a _ ih => exact inv_insert ih v mark a
  | moveOp o v mark a _ ih => exact inv_move ih v mark a
  | removeOp o v _ ih => exact inv_remove ih v
  | popOp o _ ih => exact inv_pop ih
  | shiftOp o _ ih => exact inv_shift ih

/-- Claim C1: for every OrderedSet reachable from New by any sequence of the
public operations, the set of values for which Has returns true equals
exactly the values yielded by a full front-to-back traversal, that traversal
contains no duplicate values, and Len equals the number of values it
yields. -/
theorem index_sequence_bijection (o : OrderedSet T) (h : Reachable o) (v : T) :
    (o.Has v = true ↔ v ∈ o.Slice) ∧ o.Slice.Nodup ∧ o.Len = o.Slice.length :=
  ⟨(has_iff o v).trans ((reachable_inv h).1 v), (reachable_inv h).2, rfl⟩

theorem index_sequence_bijection_witness :
    (((New ([1, 2, 3] : List Int)).Remove 2).1.Has 2 = true ↔
      (2 : Int) ∈ ((New ([1, 2, 3] : List Int)).Remove 2).1.Slice) ∧
    ((New ([1, 2, 3] : List Int)).Remove 2).1.Slice.Nodup ∧
    ((New ([1, 2, 3] : List Int)).Remove 2).1.Len =
      ((New ([1, 2, 3] : List Int)).Remove 2).1.Slice.length :=
  index_sequence_bijection _ (Reachable.removeOp _ 2 (Reachable.new [1, 2, 3])) 2

/-- Claim C4: Insert and Move return the MarkNotFound error if and only if
mark is not currently a member, and whenever that error is returned the
operation is a complete no-op: the state is exactly as before the call. -/
theorem mark_not_found_iff (o : OrderedSet T) (v mark : T) (a : Bool) :
    ((o.Insert v mark a).2.2 = some OrdsetError.markNotFound ↔ o.Has mark = false) ∧
    ((o.Move v mark a).2 = some OrdsetError.markNotFound ↔ o.Has mark = false) ∧
    (o.Has mark = false → (o.Insert v mark a).1 = o ∧ (o.Move v mark a).1 = o) := by
  by_cases hmark : o.Has mark
  · by_cases hv : o.Has v <;>
      simp [OrderedSet.Insert, OrderedSet.Move, hmark, hv]
  · simp only [Bool.not_eq_true] at hmark
    simp [OrderedSet.Insert, OrderedSet.Move, hmark]

theorem mark_not_found_iff_witness :
    ((New ([1] : List Int)).Insert 5 99 true).2.2 = some OrdsetError.markNotFound ∧
    ((New ([1] : List Int)).Move 5 99 true).2 = some OrdsetError.markNotFound ∧
    ((New ([1] : List Int)).Insert 5 99 true).1 = New ([1] : List Int) ∧
    ((New ([1] : List Int)).Move 5 99 true).1 = New ([1] : List Int) := by
  have h := mark_not_found_iff (New ([1] : List Int)) 5 99 true
  exact ⟨h.1.mpr (by decide), h.2.1.mpr (by decide),
    (h.2.2 (by decide)).1, (h.2.2 (by decide)).2⟩

/-- Claim C5: Remove of a non-member returns false without mutation; Remove
of a member returns true, afterwards Has is false and Len has decreased by
one, and the traversal afterwards is the traversal before with the single
occurrence of the value deleted (relative order preserved). -/
theorem remove_contract (o : OrderedSet T) (v : T) (h : Inv o) :
    (o.Has v = false → o.Remove v = (o, false)) ∧
    (o.Has v = true →
      (o.Remove v).2 = true ∧
      (o.Remove v).1.Has v = false ∧
      (o.Remove v).1.Len + 1 = o.Len ∧
      (o.Remove v).1.Slice = o.Slice.erase v) := by
  constructor
  · intro hv
    simp [OrderedSet.Remove, hv]
  · intro hv
    have hvl : v ∈ o.list := (h.1 v).mp ((has_iff o v).mp hv)
    refine ⟨by simp [OrderedSet.Remove, hv], ?_, ?_,
      by simp [OrderedSet.Remove, hv, OrderedSet.Slice]⟩
    · have hvm : v ∈ o.mapping := (has_iff o v).mp hv
      simp [OrderedSet.Remove, OrderedSet.Has, hvm, Finset.not_mem_erase]
    · have hpos : 0 < o.list.length := List.length_pos.mpr (List.ne_nil_of_mem hvl)
      simp only [OrderedSet.Remove, hv, if_true, OrderedSet.Len]
      rw [List.length_erase_of_mem hvl]
      omega

theorem remove_contract_witness :
    ((New ([1, 2, 3] : List Int)).Remove 2).2 = true ∧
    ((New ([1, 2, 3] : List Int)).Remove 2).1.Has 2 = false ∧
    ((New ([1, 2, 3] : List Int)).Remove 2).1.Len + 1 = (New ([1, 2, 3] : List Int)).Len ∧
    ((New ([1, 2, 3] : List Int)).Remove 2).1.Slice =
      (New ([1, 2, 3] : List Int)).Slice.erase 2 :=
  (remove_contract (New [1, 2, 3]) 2 (inv_new _)).2 (by decide)

/-- Claim C10: Move of a member value relative to itself is a guaranteed
no-op for both values of the after flag: it returns nil and leaves the state
completely unchanged (container/list MoveAfter and MoveBefore do not modify
the list when the element equals the mark). -/
theorem move_self_noop (o : OrderedSet T) (v : T) (a : Bool) (h : o.Has v = true) :
    o.Move v v a = (o, none) := by
  simp [OrderedSet.Move, moveRel, h]

theorem move_self_noop_witness :
    (New ([1, 2, 3] : List Int)).Has 2 = true ∧
    (New ([1, 2, 3] : List Int)).Move 2 2 true = (New ([1, 2, 3] : List Int), none) :=
  ⟨by decide, move_self_noop _ 2 true (by decide)⟩

/-- Claim C2: when mark is a member, Insert of a fresh value links it
immediately after mark (after true) or immediately before mark (after
false), keeping every other element in relative order, and returns
(true, nil); Insert of an existing member returns (false, nil) with the set
unchanged, never repositioning it.  The position is expressed by splitting
the traversal at the index of mark. -/
theorem insert_contract (o : OrderedSet T) (v mark : T) (a : Bool)
    (h : Inv o) (hmark : o.Has mark = true) :
    (o.Has v = true → o.Insert v mark a = (o, false, none)) ∧
    (o.Has v = false →
      (o.Insert v mark a).2 = (true, none) ∧
      (o.Insert v mark a).1.Slice =
        if a then
          o.Slice.take (o.Slice.indexOf mark + 1) ++
            v :: o.Slice.drop (o.Slice.indexOf mark + 1)
        else
          o.Slice.take (o.Slice.indexOf mark) ++
            v :: o.Slice.drop (o.Slice.indexOf mark)) := by
  have hml : mark ∈ o.list := (h.1 mark).mp ((has_iff o mark).mp hmark)
  constructor
  · intro hv
    simp [OrderedSet.Insert, hmark, hv]
  · intro hv
    refine ⟨by simp [OrderedSet.Insert, hmark, hv], ?_⟩
    simp only [OrderedSet.Insert, hmark, hv, Bool.not_true, Bool.false_eq_true,
      if_false, OrderedSet.Slice]
    exact insertRel_eq v mark a o.list hml

theorem insert_contract_witness :
    (New ([1, 2, 3, 5] : List Int)).Has 3 = true ∧
    (New ([1, 2, 3, 5] : List Int)).Has 4 = false ∧
    ((New ([1, 2, 3, 5] : List Int)).Insert 4 3 true).2 = (true, none) ∧
    ((New ([1, 2, 3, 5] : List Int)).Insert 4 3 true).1.Slice = [1, 2, 3, 4, 5] ∧
    ((New ([1, 2, 3, 5] : List Int)).Insert 4 3 true).1.Insert 4 3 true =
      (((New ([1, 2, 3, 5] : List Int)).Insert 4 3 true).1, false, none) := by
  refine ⟨by decide, by decide,
    ((insert_contract (New [1, 2, 3, 5]) 4 3 true (inv_new _) (by decide)).2
      (by decide)).1, by decide, ?_⟩
  exact (insert_contract _ 4 3 true (inv_insert (inv_new _) 4 3 true)
    (by decide)).1 (by decide)

/-- Claim C3, amended: when mark is a member, Move of a non-member is a
silent no-op returning nil; Move of a member returns nil, keeps the index
entry for the value unchanged, and, provided the value differs from the
mark, unlinks the value and relinks it immediately after (after true) or
immediately before (after false) mark, all other elements keeping their
relative order; when the value equals the mark the call leaves the set
completely unchanged instead of repositioning. -/
theorem move_contract (o : OrderedSet T) (v mark : T) (a : Bool)
    (h : Inv o) (hmark : o.Has mark = true) :
    (o.Has v = false → o.Move v mark a = (o, none)) ∧
    (o.Has v = true →
      (o.Move v mark a).2 = none ∧
      (o.Move v mark a).1.mapping = o.mapping ∧
      (v = mark → (o.Move v mark a).1 = o) ∧
      (v ≠ mark →
        (o.Move v mark a).1.Slice =
          if a then
            (o.Slice.erase v).take ((o.Slice.erase v).indexOf mark + 1) ++
              v :: (o.Slice.erase v).drop ((o.Slice.erase v).indexOf mark + 1)
          else
            (o.Slice.erase v).take ((o.Slice.erase v).indexOf mark) ++
              v :: (o.Slice.erase v).drop ((o.Slice.erase v).indexOf mark))) := by
  constructor
  · intro hv
    simp [OrderedSet.Move, hmark, hv]
  · intro hv
    refine ⟨by simp [OrderedSet.Move, hmark, hv],
      by simp [OrderedSet.Move, hmark, hv], ?_, ?_⟩
    · intro hvm
      subst hvm
      simp [OrderedSet.Move, hmark, hv, moveRel]
    · intro hvm
      have hml : mark ∈ o.list := (h.1 mark).mp ((has_iff o mark).mp hmark)
      have h1 : mark ∈ o.list.erase v :=
        (h.2.mem_erase_iff).mpr ⟨fun he => hvm he.symm, hml⟩
      simp only [OrderedSet.Move, hmark, hv, Bool.not_true, Bool.false_eq_true,
        if_false, if_true, moveRel, hvm, OrderedSet.Slice]
      exact insertRel_eq v mark a _ h1

/-- Counterexample to claim C3 as frozen: on the set [1, 2] the value 2 is a
member, so the claim demands that Move(2, 2, true) relink 2 immediately
after the node of the mark 2 and return nil; the code does return nil, but
the resulting traversal [1, 2] contains no occurrence of 2 immediately after
an occurrence of 2 — the call is a no-op instead. -/
theorem move_self_not_adjacent :
    (New ([1, 2] : List Int)).Has 2 = true ∧
    ((New ([1, 2] : List Int)).Move 2 2 true).2 = none ∧
    adjacentAfter ((New ([1, 2] : List Int)).Move 2 2 true).1.Slice 2 2 = false := by
  decide

theorem move_contract_witness :
    (New ([1, 2, 4, 3, 5] : List Int)).Has 3 = true ∧
    (New ([1, 2, 4, 3, 5] : List Int)).Has 4 = true ∧
    ((New ([1, 2, 4, 3, 5] : List Int)).Move 4 3 true).2 = none ∧
    ((New ([1, 2, 4, 3, 5] : List Int)).Move 4 3 true).1.mapping =
      (New ([1, 2, 4, 3, 5] : List Int)).mapping ∧
    ((New ([1, 2, 4, 3, 5] : List Int)).Move 4 3 true).1.Slice =
      (((New ([1, 2, 4, 3, 5] : List Int)).Slice.erase 4).take
          (((New ([1, 2, 4, 3, 5] : List Int)).Slice.erase 4).indexOf 3 + 1) ++
        4 :: ((New ([1, 2, 4, 3, 5] : List Int)).Slice.erase 4).drop
          (((New ([1, 2, 4, 3, 5] : List Int)).Slice.erase 4).indexOf 3 + 1)) ∧
    ((New ([1, 2, 4, 3, 5] : List Int)).Move 4 3 true).1.Slice = [1, 2, 3, 4, 5] := by
  have h := (move_contract (New ([1, 2, 4, 3, 5] : List Int)) 4 3 true
    (inv_new _) (by decide)).2 (by decide)
  refine ⟨by decide, by decide, h.1, h.2.1, ?_, by decide⟩
  have h4 := h.2.2.2 (by decide)
  simpa using h4

theorem foldl_append_list (elems : List T) :
    ∀ o : OrderedSet T, (∀ w, w ∈ o.mapping ↔ w ∈ o.list) →
      (elems.foldl (fun s v => (s.Append v).1) o).list =
        o.list ++ specDedup o.list elems := by
  induction elems with
  | nil => intro o _; simp [specDedup]
  | cons x xs ih =>
    intro o h
    by_cases hx : o.Has x
    · have hxl : x ∈ o.list := (h x).mp ((has_iff o x).mp hx)
      simp only [List.foldl_cons]
      rw [show (o.Append x).1 = o by simp [OrderedSet.Append, hx]]
      rw [ih o h]
      simp [specDedup, hxl]
    · have hxl : x ∉ o.list := fun hm => hx ((has_iff o x).mpr ((h x).mpr hm))
      simp only [List.foldl_cons]
      have hstep : (o.Append x).1 = ⟨o.list ++ [x], insert x o.mapping⟩ := by
        simp [OrderedSet.Append, hx]
      have hmem : ∀ w, w ∈ (insert x o.mapping : Finset T) ↔ w ∈ o.list ++ [x] := by
        intro w
        simp only [Finset.mem_insert, List.mem_append, List.mem_singleton, h w]
        tauto
      rw [hstep, ih ⟨o.list ++ [x], insert x o.mapping⟩ hmem]
      simp [specDedup, hxl, List.append_assoc]

theorem new_slice (elems : List T) : (New elems).Slice = specDedup [] elems := by
  have h := foldl_append_list elems ⟨[], ∅⟩ (fun w => by simp)
  simpa [OrderedSet.New, OrderedSet.Slice] using h

theorem specDedup_of_nodup :
    ∀ (l seen : List T), l.Nodup → (∀ x ∈ l, x ∉ seen) → specDedup seen l = l := by
  intro l
  induction l with
  | nil => intro seen _ _; rfl
  | cons x xs ih =>
    intro seen hn hd
    have hx : x ∉ seen := hd x (List.mem_cons_self x xs)
    simp only [specDedup, hx, if_false]
    congr 1
    refine ih _ (List.nodup_cons.mp hn).2 ?_
    intro y hy
    simp only [List.mem_append, List.mem_singleton]
    rintro (h1 | h2)
    · exact hd y (List.mem_cons_of_mem x hy) h1
    · exact (List.nodup_cons.mp hn).1 (h2 ▸ hy)

theorem new_slice_of_nodup (l : List T) (h : l.Nodup) : (New l).Slice = l := by
  rw [new_slice l, specDedup_of_nodup l [] h (by simp)]

theorem popSeq_spec :
    ∀ (l : List T) (m : Finset T), popSeq l.length ⟨l, m⟩ = l.reverse.map some := by
  intro l
  induction l using List.reverseRecOn with
  | nil => intro m; rfl
  | append_singleton l a ih =>
    intro m
    have hp : (⟨l ++ [a], m⟩ : OrderedSet T).Pop = (⟨l, m.erase a⟩, some a) :=
      pop_concat rfl
    rw [show (l ++ [a]).length = l.length + 1 by simp]
    simp only [popSeq, hp, ih (m.erase a)]
    simp

theorem shiftSeq_spec :
    ∀ (l : List T) (m : Finset T), shiftSeq l.length ⟨l, m⟩ = l.map some := by
  intro l
  induction l with
  | nil => intro m; rfl
  | cons x xs ih =>
    intro m
    simp only [List.length_cons, shiftSeq, OrderedSet.Shift, List.map_cons]
    exact congrArg _ (ih (m.erase x))

/-- Claim C6: on the set built by Appending pairwise-distinct values in
order, repeated Pop yields the values back to front and repeated Shift
yields them front to back, each flagged ok; on an empty set Pop and Shift
return the not-ok flag (modelled none) and leave the set unchanged. -/
theorem pop_shift_duality (l : List T) (h : l.Nodup) (o : OrderedSet T) :
    popSeq l.length (New l) = l.reverse.map some ∧
    shiftSeq l.length (New l) = l.map some ∧
    (o.Len = 0 → o.Pop = (o, none) ∧ o.Shift = (o, none)) := by
  have hl : (New l).list = l := new_slice_of_nodup l h
  have heq : New l = (⟨l, (New l).mapping⟩ : OrderedSet T) := by
    have h2 : (⟨(New l).list, (New l).mapping⟩ : OrderedSet T) =
        ⟨l, (New l).mapping⟩ := by rw [hl]
    exact h2
  refine ⟨?_, ?_, ?_⟩
  · rw [heq]
    exact popSeq_spec l _
  · rw [heq]
    exact shiftSeq_spec l _
  · intro h0
    have hnil : o.list = [] := List.length_eq_zero.mp h0
    exact ⟨pop_nil hnil, by simp [OrderedSet.Shift, hnil]⟩

theorem pop_shift_duality_witness :
    popSeq ([1, 2, 3] : List Int).length (New [1, 2, 3]) =
      ([1, 2, 3] : List Int).reverse.map some ∧
    shiftSeq ([1, 2, 3] : List Int).length (New [1, 2, 3]) =
      ([1, 2, 3] : List Int).map some ∧
    (New ([] : List Int)).Pop = (New ([] : List Int), none) ∧
    (New ([] : List Int)).Shift = (New ([] : List Int), none) := by
  have h := pop_shift_duality ([1, 2, 3] : List Int) (by decide) (New ([] : List Int))
  exact ⟨h.1, h.2.1, (h.2.2 (by decide)).1, (h.2.2 (by decide)).2⟩

/-- Claim C8: New builds the same set as an empty set followed by Append of
each initial value in order; later duplicates are silently dropped and the
first-occurrence order is retained (refinement against the spec-side dedup
description), with no error possible; in particular
New(0,3,4,1,19,21,4,3,0) traverses as [0,3,4,1,19,21]. -/
theorem construction_dedup (elems : List T) :
    New elems = List.foldl (fun s v => (s.Append v).1) (New []) elems ∧
    (New elems).Slice = specDedup [] elems ∧
    (New ([0, 3, 4, 1, 19, 21, 4, 3, 0] : List Int)).Slice = [0, 3, 4, 1, 19, 21] :=
  ⟨rfl, new_slice elems, by decide⟩

theorem rangeTraceGo_snd (loop : Nat → T → Option E) :
    ∀ (l : List T) (i : Nat), (rangeTraceGo loop i l).2 = rangeGo loop i l := by
  intro l
  induction l with
  | nil => intro i; rfl
  | cons x xs ih =>
    intro i
    simp only [rangeTraceGo, rangeGo]
    cases loop i x <;> simp [ih]

theorem rangeTraceGo_none (loop : Nat → T → Option E) :
    ∀ (l : List T) (i : Nat), (∀ p ∈ enumSeq i l, loop p.1 p.2 = none) →
      rangeTraceGo loop i l = (enumSeq i l, none) := by
  intro l
  induction l with
  | nil => intro i _; rfl
  | cons x xs ih =>
    intro i h
    have hx : loop i x = none := h (i, x) (by simp [enumSeq])
    simp only [rangeTraceGo, hx, enumSeq]
    rw [ih (i + 1) (fun p hp => h p (by simp [enumSeq, hp]))]

theorem rangeTraceGo_err (loop : Nat → T → Option E) :
    ∀ (l : List T) (i : Nat) (pre : List (Nat × T)) (j : Nat) (x : T)
      (post : List (Nat × T)) (e : E),
      enumSeq i l = pre ++ (j, x) :: post →
      (∀ p ∈ pre, loop p.1 p.2 = none) →
      loop j x = some e →
      rangeTraceGo loop i l = (pre ++ [(j, x)], some e) := by
  intro l
  induction l with
  | nil =>
    intro i pre j x post e henum _ _
    exact absurd henum (by simp [enumSeq])
  | cons y ys ih =>
    intro i pre j x post e henum hpre hx
    cases pre with
    | nil =>
      rw [enumSeq, List.nil_append] at henum
      injection henum with h1 h2
      have hi : i = j := congrArg Prod.fst h1
      have hy : y = x := congrArg Prod.snd h1
      subst hi
      subst hy
      simp only [rangeTraceGo, hx, List.nil_append]
    | cons p pre' =>
      rw [enumSeq, List.cons_append] at henum
      injection henum with h1 h2
      subst h1
      have hy : loop i y = none := hpre (i, y) (List.mem_cons_self _ _)
      simp only [rangeTraceGo, hy]
      rw [ih (i + 1) pre' j x post e h2
        (fun q hq => hpre q (List.mem_cons_of_mem _ hq)) hx]
      rfl

/-- Claim C7: Range calls the visitor on the members in front-to-back order
with consecutive zero-based positions; if the visitor errs at some element,
Range returns exactly that error after visiting only the elements up to and
including it; if the visitor never errs, every member is visited exactly
once and Range returns nil.  The visit sequence is the instrumented trace
RangeTrace, whose second component is the Range result. -/
theorem range_spec (o : OrderedSet T) (loop : Nat → T → Option E) :
    ((∀ p ∈ enumSeq 0 o.Slice, loop p.1 p.2 = none) →
      o.Range loop = none ∧ o.RangeTrace loop = (enumSeq 0 o.Slice, none)) ∧
    (∀ (pre : List (Nat × T)) (j : Nat) (x : T) (post : List (Nat × T)) (e : E),
      enumSeq 0 o.Slice = pre ++ (j, x) :: post →
      (∀ p ∈ pre, loop p.1 p.2 = none) →
      loop j x = some e →
      o.Range loop = some e ∧ o.RangeTrace loop = (pre ++ [(j, x)], some e)) := by
  constructor
  · intro h
    have ht := rangeTraceGo_none loop o.list 0 h
    refine ⟨?_, ht⟩
    show rangeGo loop 0 o.list = none
    rw [← rangeTraceGo_snd loop o.list 0, ht]
  · intro pre j x post e henum hpre hx
    have ht := rangeTraceGo_err loop o.list 0 pre j x post e henum hpre hx
    refine ⟨?_, ht⟩
    show rangeGo loop 0 o.list = some e
    rw [← rangeTraceGo_snd loop o.list 0, ht]

theorem range_spec_witness :
    (New (["zero", "one", "two", "three"] : List String)).Range
        (fun _ s => if s = "two" then some 7 else none) = some 7 ∧
    (New (["zero", "one", "two", "three"] : List String)).RangeTrace
        (fun _ s => if s = "two" then some 7 else none) =
      ([(0, "zero"), (1, "one"), (2, "two")], some 7) := by
  have h := (range_spec (New (["zero", "one", "two", "three"] : List String))
      (fun _ s => if s = "two" then some 7 else none)).2
    [(0, "zero"), (1, "one")] 2 "two" [(3, "three")] 7
    (by decide) (by decide) (by decide)
  exact ⟨h.1, by simpa using h.2⟩

/-- Claim C9: on every nonempty set Front is the value at position 0 of the
traversal and Back the value at position Len - 1, and the absent-node
dereference branch of the embedding (the none result) is unreachable under
this precondition. -/
theorem front_back (o : OrderedSet T) (h : 0 < o.Len) :
    o.Front = o.Slice[0]? ∧ o.Back = o.Slice[o.Len - 1]? ∧
    o.Front ≠ none ∧ o.Back ≠ none := by
  rcases hl : o.list with _ | ⟨x, xs⟩
  · rw [OrderedSet.Len, hl] at h
    exact absurd h (by simp)
  · refine ⟨?_, ?_, ?_, ?_⟩
    · show o.list.head? = o.list[0]?
      simp [hl]
    · show o.list.getLast? = o.list[o.list.length - 1]?
      exact List.getLast?_eq_getElem? o.list
    · show o.list.head? ≠ none
      simp [hl]
    · show o.list.getLast? ≠ none
      simp [hl]

theorem front_back_witness :
    0 < (New ([5, 7] : List Int)).Len ∧
    (New ([5, 7] : List Int)).Front = (New ([5, 7] : List Int)).Slice[0]? ∧
    (New ([5, 7] : List Int)).Back =
      (New ([5, 7] : List Int)).Slice[(New ([5, 7] : List Int)).Len - 1]? ∧
    (New ([5, 7] : List Int)).Front ≠ none ∧
    (New ([5, 7] : List Int)).Back ≠ none := by
  have h := front_back (New ([5, 7] : List Int)) (by decide)
  exact ⟨by decide, h.1, h.2.1, h.2.2.1, h.2.2.2⟩

end Ordset
